import Mathlib

/-!
Shallow embedding of the re-identification evaluation core of the repository
(`src/reid/evaluators.py`): the k-reciprocal re-ranking pipeline
(`k_re_ranking`), the pairwise distance builder (`pairwise_distance`), and the
evaluation entry point (`evaluate_all` / `Evaluator.evaluate`).

Matrices are represented as lists of rows (`List (List ℝ)` for numeric
matrices, `List (List ℕ)` for index matrices such as `initial_rank`).
Floating-point arithmetic is modelled by exact real arithmetic; Lean's
total division (`x / 0 = 0`) replaces the float `inf`/`nan` cases.
-/

/-- Entry `(i, j)` of a real matrix given as a list of rows; `0` out of bounds
(in-range reads coincide with tensor indexing). -/
noncomputable def get2 (M : List (List ℝ)) (i j : ℕ) : ℝ :=
  (M.getD i []).getD j 0

/-- Python's `round (n / 2)` for a natural `n`: `n / 2` is an integer or a
half-integer, and Python rounds half-integers to the nearest even integer
(banker's rounding), which is what `round((k1 + 1) / 2)` in the source does. -/
def pyRoundHalf (n : ℕ) : ℕ :=
  if n % 2 = 0 then n / 2
  else if (n / 2) % 2 = 0 then n / 2 else n / 2 + 1

/-- Lines 27–30 (and 35–38) of `evaluators.py`: the k-reciprocal set of item
`c` at neighborhood radius `h`.
`forward = initial_rank[c, :h]`; `backward[r] = initial_rank[forward[r], :h]`;
`fi = torch.nonzero(backward == c)[:, 1]` collects, in row-major order of the
`backward` matrix, the *column* coordinates of the entries equal to `c`;
the result is `forward[fi]`. -/
def kReciprocal (rank : List (List ℕ)) (c h : ℕ) : List ℕ :=
  let forward := (rank.getD c []).take h
  let backward := forward.map (fun f => (rank.getD f []).take h)
  let fi := (backward.map
    (fun b => (List.range b.length).filter (fun p => decide (b.getD p 0 = c)))).flatten
  fi.map (fun p => forward.getD p 0)

/-- `np.intersect1d a b |>.size`: the number of distinct values common to the
two lists. -/
def intersectCount (a b : List ℕ) : ℕ :=
  (b.dedup.filter (fun x => decide (x ∈ a))).length

/-- Lines 31–41 of `evaluators.py`: starting from the base k-reciprocal set of
`i` at radius `k1 + 1`, iterate over its entries (duplicates included); each
candidate `c` contributes its own k-reciprocal set at radius
`round((k1 + 1) / 2)` whenever the number of distinct values it shares with the
base set exceeds `2/3` of its length (the float test
`intersect.size(0) > 2 / 3 * candidate_k_reciprocal_index.size(0)` in exact
arithmetic). -/
def expansionList (rank : List (List ℕ)) (k1 i : ℕ) : List ℕ :=
  let base := kReciprocal rank i (k1 + 1)
  base.foldl (fun acc c =>
    let cand := kReciprocal rank c (pyRoundHalf (k1 + 1))
    if 2 * cand.length < 3 * intersectCount base cand then acc ++ cand else acc) base

/-- `torch.unique`: the distinct values of a tensor, sorted ascending. -/
def uniqueSorted (l : List ℕ) : List ℕ :=
  List.insertionSort (· ≤ ·) l.dedup

/-- Line 43 of `evaluators.py`: the deduplicated, sorted expansion set
`k_reciprocal_expansion_index` of row `i`. -/
def expSet (rank : List (List ℕ)) (k1 i : ℕ) : List ℕ :=
  uniqueSorted (expansionList rank k1 i)

/-- The candidate-neighborhood radius the source uses in its expansion pass
(`round((k1 + 1) / 2)`, line 35). -/
def codeCandidateRadius (k1 : ℕ) : ℕ := pyRoundHalf (k1 + 1)

/-- The candidate-neighborhood radius the specification claims
(`round(k1 / 2)`). -/
def specCandidateRadius (k1 : ℕ) : ℕ := pyRoundHalf k1

/-- The expansion pass as the specification of claim C3 words it: identical to
`expansionList` except that each candidate's k-reciprocal set is computed at
radius `round(k1 / 2)` instead of the source's `round((k1 + 1) / 2)`. -/
def specExpansionList (rank : List (List ℕ)) (k1 i : ℕ) : List ℕ :=
  let base := kReciprocal rank i (k1 + 1)
  base.foldl (fun acc c =>
    let cand := kReciprocal rank c (specCandidateRadius k1)
    if 2 * cand.length < 3 * intersectCount base cand then acc ++ cand else acc) base

/-- `torch.cdist` with `p = 2` between two feature rows: the Euclidean norm of
their difference (line 17 of `evaluators.py`). -/
noncomputable def eucDist (xs ys : List ℝ) : ℝ :=
  Real.sqrt ((List.zipWith (fun a b => (a - b) ^ 2) xs ys).sum)

/-- `original_dist = torch.cdist(feat, feat, p=2)`: the square all-pairs
Euclidean distance matrix over the rows of `feat`. -/
noncomputable def cdistMat (feat : List (List ℝ)) : List (List ℝ) :=
  feat.map (fun xi => feat.map (fun xj => eucDist xi xj))

/-- `torch.max(row)` for a nonempty row (the maximum of its entries). -/
noncomputable def rowMax (row : List ℝ) : ℝ :=
  row.foldl max (row.headD 0)

/-- Line 24: `original_dist_norm = original_dist / torch.max(original_dist,
dim=1, keepdim=True).values` — every row divided by its own maximum. -/
noncomputable def distNormalize (D : List (List ℝ)) : List (List ℝ) :=
  D.map (fun row => row.map (fun x => x / rowMax row))

/-- Comparison of two column indices by their value in a fixed row. -/
noncomputable def keyLe (row : List ℝ) (a b : ℕ) : Prop :=
  row.getD a 0 ≤ row.getD b 0

noncomputable instance keyLe.decRel (row : List ℝ) : DecidableRel (keyLe row) :=
  fun a b => Real.decidableLE (row.getD a 0) (row.getD b 0)

instance keyLe.total (row : List ℝ) : IsTotal ℕ (keyLe row) :=
  ⟨fun _ _ => le_total _ _⟩

instance keyLe.trans (row : List ℝ) : IsTrans ℕ (keyLe row) :=
  ⟨fun _ _ _ hab hbc => le_trans hab hbc⟩

/-- Line 19: `initial_rank[i]` is the ascending argsort of row `i` of the
distance matrix (a stable sort of the column indices by their distance). -/
noncomputable def argsortRow (row : List ℝ) : List ℕ :=
  List.insertionSort (keyLe row) (List.range row.length)

/-- Line 19: `_, initial_rank = torch.sort(original_dist, dim=1)`. -/
noncomputable def argsortMat (D : List (List ℝ)) : List (List ℕ) :=
  D.map argsortRow

/-- Line 44: the (unnormalized) weight attached to expansion neighbor `j` of
row `i`, `exp(-original_dist_norm[i][j])`. -/
noncomputable def expWeight (dnorm : List (List ℝ)) (i j : ℕ) : ℝ :=
  Real.exp (-(get2 dnorm i j))

/-- Line 45: `torch.sum(weight)` — the total weight of row `i`'s expansion
set. -/
noncomputable def weightTot (rank : List (List ℕ)) (dnorm : List (List ℝ)) (k1 i : ℕ) : ℝ :=
  ((expSet rank k1 i).map (fun j => expWeight dnorm i j)).sum

/-- Lines 23 and 44–45: row `i` of `V`. Entries indexed by the expansion set
hold the normalized weight `weight / torch.sum(weight)`; all others keep their
initialization value `0`. -/
noncomputable def vRow (rank : List (List ℕ)) (dnorm : List (List ℝ)) (k1 N i : ℕ) :
    List ℝ :=
  (List.range N).map (fun j =>
    if j ∈ expSet rank k1 i then expWeight dnorm i j / weightTot rank dnorm k1 i else 0)

/-- The weighted-neighbor matrix `V` after the per-row loop of lines 26–45. -/
noncomputable def vMat (rank : List (List ℕ)) (dnorm : List (List ℝ)) (k1 N : ℕ) :
    List (List ℝ) :=
  (List.range N).map (fun i => vRow rank dnorm k1 N i)

/-- Lines 48–50 (local query expansion): when `k2 ≠ 1`, row `i` of `V` is
replaced by the mean of the rows of `V` indexed by `initial_rank[i, :k2]`;
`k2 = 1` leaves `V` unchanged. -/
noncomputable def lqeMat (rank : List (List ℕ)) (V : List (List ℝ)) (k2 N : ℕ) :
    List (List ℝ) :=
  if k2 = 1 then V
  else
    (List.range N).map (fun i =>
      (List.range N).map (fun j =>
        (((rank.getD i []).take k2).map (fun r => get2 V r j)).sum /
          (((rank.getD i []).take k2).length : ℝ)))

/-- Line 61: `indNonZero = torch.nonzero(V[i, :] != 0)` — the columns with a
nonzero entry in row `i` of `V`, ascending. -/
noncomputable def indNonZero (V : List (List ℝ)) (N i : ℕ) : List ℕ :=
  (List.range N).filter (fun j => decide (get2 V i j ≠ 0))

/-- Lines 53–55: `invIndex[j] = torch.nonzero(V[:, j] != 0)` — the rows with a
nonzero entry in column `j` of `V`, ascending. -/
noncomputable def invIndexCol (V : List (List ℝ)) (N j : ℕ) : List ℕ :=
  (List.range N).filter (fun r => decide (get2 V r j ≠ 0))

/-- Lines 60–64: starting from `temp_min = torch.zeros(gallery_num)`, for each
`j` in `indNonZero` and each `r` in `invIndex[j]`, accumulate
`temp_min[r] += min(V[i][j], V[r][j])`. -/
noncomputable def tempMinList (V : List (List ℝ)) (N i : ℕ) : List ℝ :=
  (indNonZero V N i).foldl
    (fun acc j =>
      (invIndexCol V N j).foldl
        (fun acc2 r => acc2.set r (acc2.getD r 0 + min (get2 V i j) (get2 V r j))) acc)
    (List.replicate N 0)

/-- Lines 57–65: `jaccard_dist[i, :] = 1 - temp_min / (2 - temp_min)`. -/
noncomputable def jaccardMat (V : List (List ℝ)) (N : ℕ) : List (List ℝ) :=
  (List.range N).map (fun i =>
    (List.range N).map (fun r =>
      1 - (tempMinList V N i).getD r 0 / (2 - (tempMinList V N i).getD r 0)))

/-- The `initial_rank` matrix of the pipeline (`k_re_ranking` lines 17–19). -/
noncomputable def pipeRank (feat : List (List ℝ)) : List (List ℕ) :=
  argsortMat (cdistMat feat)

/-- The weighted-neighbor matrix `V` of the pipeline before local query
expansion (`k_re_ranking` lines 23–45). -/
noncomputable def pipeV (feat : List (List ℝ)) (k1 : ℕ) : List (List ℝ) :=
  vMat (pipeRank feat) (distNormalize (cdistMat feat)) k1 feat.length

/-- The matrix `V` after local query expansion (`k_re_ranking` lines 48–50). -/
noncomputable def pipeV2 (feat : List (List ℝ)) (k1 k2 : ℕ) : List (List ℝ) :=
  lqeMat (pipeRank feat) (pipeV feat k1) k2 feat.length

/-- The Jaccard distance matrix of the pipeline (`k_re_ranking` lines 53–65). -/
noncomputable def pipeJaccard (feat : List (List ℝ)) (k1 k2 : ℕ) : List (List ℝ) :=
  jaccardMat (pipeV2 feat k1 k2) feat.length

/-- `k_re_ranking(feat, k1, k2, lambda_value)` (lines 13–70): the returned
matrix `final_dist = jaccard_dist * (1 - lambda_value) + original_dist *
lambda_value`. The restriction to the query×gallery block (line 68) is
commented out in the source, so the whole square matrix is returned. -/
noncomputable def kReRanking (feat : List (List ℝ)) (k1 k2 : ℕ) (lam : ℝ) :
    List (List ℝ) :=
  (List.range feat.length).map (fun i =>
    (List.range feat.length).map (fun r =>
      get2 (pipeJaccard feat k1 k2) i r * (1 - lam) + get2 (cdistMat feat) i r * lam))

/-- `(xs * ys).sum` — one entry of `torch.mm(x, x.t())`. -/
noncomputable def dotProd (xs ys : List ℝ) : ℝ :=
  (List.zipWith (fun a b => a * b) xs ys).sum

/-- Lines 188–196 of `evaluators.py` (`pairwise_distance`, Euclidean, square
all-pairs case): `dist = torch.pow(x, 2).sum(dim=1, keepdim=True) * 2;
dist = dist.expand(n, n) - 2 * torch.mm(x, x.t())`, i.e.
`D[i][j] = 2·‖x_i‖² − 2·x_i·x_j`. -/
noncomputable def pairwiseDistSelf (x : List (List ℝ)) : List (List ℝ) :=
  (List.range x.length).map (fun i =>
    (List.range x.length).map (fun j =>
      2 * (((x.getD i []).map (fun v => v ^ 2)).sum) - 2 * dotProd (x.getD i []) (x.getD j [])))

/-- The three CMC protocol flags passed to the external `cmc` scorer
(`reid/evaluation_metrics`, outside `src/`). -/
structure CmcFlags where
  separate_camera_set : Bool
  single_gallery_shot : Bool
  first_match_break : Bool
deriving DecidableEq, Repr

/-- Lines 259–265 of `evaluators.py`: the protocol-name → flags dictionary
built by `evaluate_all`; `'allshots'` is always present, and exactly one of
`'market1501'` / `'dukemtmc'` is added depending on the `dataset` argument. -/
def cmcConfigs (dataset : String) : List (String × CmcFlags) :=
  [("allshots", ⟨false, false, false⟩)] ++
    (if dataset = "market1501" then [("market1501", ⟨false, false, true⟩)]
     else [("dukemtmc", ⟨false, true, false⟩)])

/-- Lines 240–276 of `evaluators.py` (`evaluate_all`), with the external `cmc`
scorer (in `reid/evaluation_metrics`, not under `src/`) abstracted as the
argument `cmcF` (already applied to the ids/cams, keeping the distance matrix
and the flags). The returned scalar is `cmc_scores[dataset][0]`; a `dataset`
name absent from the dictionary raises `KeyError` in Python, modelled as
`none` (the computed mAP is only printed and does not affect the returned
value). -/
noncomputable def evaluateAll (cmcF : List (List ℝ) → CmcFlags → List ℝ)
    (distmat : List (List ℝ)) (dataset : String) : Option ℝ :=
  match ((cmcConfigs dataset).lookup dataset) with
  | none => none
  | some fl => (cmcF distmat fl).head?

/-- Lines 284–296 (`Evaluator.evaluate`): with `re_ranking=True` the matrix
handed to `evaluate_all` is `k_re_ranking(distmat)` at the default
configuration `k1=20, k2=6, lambda=0.3`; otherwise `distmat` itself. -/
noncomputable def evaluatorEvaluate (cmcF : List (List ℝ) → CmcFlags → List ℝ)
    (distmat : List (List ℝ)) (dataset : String) (reRank : Bool) : Option ℝ :=
  if reRank then evaluateAll cmcF (kReRanking distmat 20 6 (3 / 10)) dataset
  else evaluateAll cmcF distmat dataset

/-! ### Basic bridge lemmas -/

theorem getD_range_map {α : Type} (f : ℕ → α) {n i : ℕ} (d : α) (h : i < n) :
    ((List.range n).map f).getD i d = f i := by
  rw [List.getD_eq_getElem?_getD, List.getElem?_map, List.getElem?_range h]
  rfl

theorem get2_range_map (f : ℕ → ℕ → ℝ) {n m i j : ℕ} (hi : i < n) (hj : j < m)
    (M : List (List ℝ))
    (hM : M = (List.range n).map (fun a => (List.range m).map (fun b => f a b))) :
    get2 M i j = f i j := by
  subst hM
  unfold get2
  rw [getD_range_map _ ([] : List ℝ) hi, getD_range_map _ (0 : ℝ) hj]

theorem sum_range_map (f : ℕ → ℝ) (n : ℕ) :
    ((List.range n).map f).sum = ∑ j ∈ Finset.range n, f j := by
  induction n with
  | zero => simp
  | succ m ih =>
    rw [List.range_succ, List.map_append, List.sum_append, Finset.sum_range_succ, ih]
    simp

theorem map_div_sum (S : List ℕ) (w : ℕ → ℝ) (T : ℝ) :
    (S.map (fun j => w j / T)).sum = (S.map w).sum / T := by
  induction S with
  | nil => simp
  | cons a l ih => simp [ih, add_div]

theorem sum_ite_mem_list (S : List ℕ) (hnd : S.Nodup) {N : ℕ}
    (hsub : ∀ x ∈ S, x < N) (f : ℕ → ℝ) :
    ((List.range N).map (fun j => if j ∈ S then f j else 0)).sum = (S.map f).sum := by
  rw [sum_range_map]
  have h1 : ∀ j : ℕ, (if j ∈ S then f j else 0) = (if j ∈ S.toFinset then f j else 0) := by
    intro j
    by_cases hj : j ∈ S
    · rw [if_pos hj, if_pos (List.mem_toFinset.mpr hj)]
    · rw [if_neg hj, if_neg (fun hc => hj (List.mem_toFinset.mp hc))]
  simp only [h1]
  rw [Finset.sum_ite_mem]
  have h2 : Finset.range N ∩ S.toFinset = S.toFinset := by
    apply Finset.inter_eq_right.mpr
    intro x hx
    exact Finset.mem_range.mpr (hsub x (List.mem_toFinset.mp hx))
  rw [h2, List.sum_toFinset _ hnd]

/-! ### Properties of the expansion-set machinery -/

theorem expSet_nodup (rank : List (List ℕ)) (k1 i : ℕ) : (expSet rank k1 i).Nodup :=
  ((List.perm_insertionSort _ _).nodup_iff).mpr (List.nodup_dedup _)

theorem mem_expSet {rank : List (List ℕ)} {k1 i x : ℕ} :
    x ∈ expSet rank k1 i ↔ x ∈ expansionList rank k1 i := by
  unfold expSet uniqueSorted
  rw [(List.perm_insertionSort _ _).mem_iff, List.mem_dedup]

theorem kReciprocal_mem_lt (rank : List (List ℕ)) (c h N : ℕ)
    (hval : ∀ row ∈ rank, ∀ v ∈ row, v < N) (hN : 0 < N) :
    ∀ x ∈ kReciprocal rank c h, x < N := by
  intro x hx
  unfold kReciprocal at hx
  simp only [List.mem_map] at hx
  obtain ⟨p, _, rfl⟩ := hx
  set forward := (rank.getD c []).take h with hf
  by_cases hplt : p < forward.length
  · have hmem : forward.getD p 0 ∈ forward := by
      rw [List.getD_eq_getElem _ _ hplt]
      exact List.getElem_mem _
    have hmem2 : forward.getD p 0 ∈ rank.getD c [] := List.take_subset _ _ hmem
    by_cases hc : c < rank.length
    · have : rank.getD c [] ∈ rank := by
        rw [List.getD_eq_getElem _ _ hc]
        exact List.getElem_mem _
      exact hval _ this _ hmem2
    · rw [List.getD_eq_default _ _ (le_of_not_lt hc)] at hmem2
      exact absurd hmem2 (List.not_mem_nil _)
  · rw [List.getD_eq_default _ _ (le_of_not_lt hplt)]
    exact hN

theorem mem_expandFold (rank : List (List ℕ)) (h : ℕ) (base0 : List ℕ) :
    ∀ (cs acc : List ℕ) (x : ℕ),
      (x ∈ cs.foldl (fun acc c =>
          let cand := kReciprocal rank c h
          if 2 * cand.length < 3 * intersectCount base0 cand then acc ++ cand else acc) acc ↔
        x ∈ acc ∨ ∃ c ∈ cs,
          2 * (kReciprocal rank c h).length <
              3 * intersectCount base0 (kReciprocal rank c h) ∧
            x ∈ kReciprocal rank c h) := by
  intro cs
  induction cs with
  | nil => simp
  | cons c cs ih =>
    intro acc x
    simp only [List.foldl_cons]
    by_cases hc : 2 * (kReciprocal rank c h).length <
        3 * intersectCount base0 (kReciprocal rank c h)
    · simp only [hc, if_true, ih, List.mem_append, List.mem_cons]
      constructor
      · rintro (( hx | hx) | ⟨d, hd, hcond, hx⟩)
        · exact Or.inl hx
        · exact Or.inr ⟨c, Or.inl rfl, hc, hx⟩
        · exact Or.inr ⟨d, Or.inr hd, hcond, hx⟩
      · rintro (hx | ⟨d, (rfl | hd), hcond, hx⟩)
        · exact Or.inl (Or.inl hx)
        · exact Or.inl (Or.inr hx)
        · exact Or.inr ⟨d, hd, hcond, hx⟩
    · simp only [hc, if_false, ih, List.mem_cons]
      constructor
      · rintro (hx | ⟨d, hd, hcond, hx⟩)
        · exact Or.inl hx
        · exact Or.inr ⟨d, Or.inr hd, hcond, hx⟩
      · rintro (hx | ⟨d, (rfl | hd), hcond, hx⟩)
        · exact Or.inl hx
        · exact absurd hcond hc
        · exact Or.inr ⟨d, hd, hcond, hx⟩

theorem mem_expansionList {rank : List (List ℕ)} {k1 i x : ℕ} :
    x ∈ expansionList rank k1 i ↔
      x ∈ kReciprocal rank i (k1 + 1) ∨
        ∃ c ∈ kReciprocal rank i (k1 + 1),
          2 * (kReciprocal rank c (pyRoundHalf (k1 + 1))).length <
              3 * intersectCount (kReciprocal rank i (k1 + 1))
                (kReciprocal rank c (pyRoundHalf (k1 + 1))) ∧
            x ∈ kReciprocal rank c (pyRoundHalf (k1 + 1)) := by
  unfold expansionList
  exact mem_expandFold rank (pyRoundHalf (k1 + 1)) (kReciprocal rank i (k1 + 1))
    (kReciprocal rank i (k1 + 1)) (kReciprocal rank i (k1 + 1)) x

theorem expansionList_mem_lt (rank : List (List ℕ)) (k1 i N : ℕ)
    (hval : ∀ row ∈ rank, ∀ v ∈ row, v < N) (hN : 0 < N) :
    ∀ x ∈ expansionList rank k1 i, x < N := by
  intro x hx
  rcases mem_expansionList.mp hx with hb | ⟨c, _, _, hc⟩
  · exact kReciprocal_mem_lt rank i (k1 + 1) N hval hN x hb
  · exact kReciprocal_mem_lt rank c (pyRoundHalf (k1 + 1)) N hval hN x hc

theorem self_mem_kReciprocal (rank : List (List ℕ)) (i h : ℕ)
    (hmem : i ∈ (rank.getD i []).take h) :
    i ∈ kReciprocal rank i h := by
  obtain ⟨p, hp, hpe⟩ := List.mem_iff_getElem.mp hmem
  have hfp : ((rank.getD i []).take h).getD p 0 = i := by
    rw [List.getD_eq_getElem _ _ hp, hpe]
  simp only [kReciprocal]
  refine List.mem_map.mpr ⟨p, ?_, hfp⟩
  refine List.mem_flatten.mpr
    ⟨(List.range ((rank.getD i []).take h).length).filter
      (fun q => decide (((rank.getD i []).take h).getD q 0 = i)), ?_, ?_⟩
  · refine List.mem_map.mpr ⟨(rank.getD i []).take h, ?_, rfl⟩
    exact List.mem_map.mpr ⟨i, hmem, rfl⟩
  · simp only [List.mem_filter, List.mem_range, decide_eq_true_eq]
    exact ⟨hp, hfp⟩

theorem base_subset_expansionList (rank : List (List ℕ)) (k1 i : ℕ) :
    ∀ x ∈ kReciprocal rank i (k1 + 1), x ∈ expansionList rank k1 i := by
  intro x hx
  exact mem_expansionList.mpr (Or.inl hx)

/-! ### Row sums of `V` -/

theorem weightTot_pos (rank : List (List ℕ)) (dnorm : List (List ℝ)) (k1 i : ℕ)
    (hne : expSet rank k1 i ≠ []) :
    0 < weightTot rank dnorm k1 i := by
  unfold weightTot
  apply List.sum_pos
  · intro x hx
    simp only [List.mem_map] at hx
    obtain ⟨j, _, rfl⟩ := hx
    exact Real.exp_pos _
  · simpa using hne

theorem vRow_sum_of_nonempty (rank : List (List ℕ)) (dnorm : List (List ℝ)) (k1 N i : ℕ)
    (hsub : ∀ x ∈ expSet rank k1 i, x < N) (hne : expSet rank k1 i ≠ []) :
    (vRow rank dnorm k1 N i).sum = 1 := by
  unfold vRow
  rw [sum_ite_mem_list _ (expSet_nodup rank k1 i) hsub]
  rw [map_div_sum]
  exact div_self (ne_of_gt (weightTot_pos rank dnorm k1 i hne))

theorem vRow_sum_of_empty (rank : List (List ℕ)) (dnorm : List (List ℝ)) (k1 N i : ℕ)
    (he : expSet rank k1 i = []) :
    (vRow rank dnorm k1 N i).sum = 0 := by
  unfold vRow
  rw [he]
  simp

/-! ### Properties of the argsort -/

theorem argsortRow_perm (row : List ℝ) :
    (argsortRow row).Perm (List.range row.length) :=
  List.perm_insertionSort _ _

theorem argsortRow_length (row : List ℝ) : (argsortRow row).length = row.length := by
  rw [(argsortRow_perm row).length_eq, List.length_range]

theorem argsortRow_mem_lt (row : List ℝ) : ∀ x ∈ argsortRow row, x < row.length := by
  intro x hx
  simpa using (argsortRow_perm row).mem_iff.mp hx

theorem argsortRow_mem_self (row : List ℝ) (i : ℕ) (hi : i < row.length) :
    i ∈ argsortRow row := by
  exact (argsortRow_perm row).mem_iff.mpr (List.mem_range.mpr hi)

theorem argsortRow_sorted (row : List ℝ) : (argsortRow row).Sorted (keyLe row) :=
  List.sorted_insertionSort _ _

theorem argsortMat_mem_lt (D : List (List ℝ)) (N : ℕ)
    (hsq : ∀ row ∈ D, row.length = N) :
    ∀ row ∈ argsortMat D, ∀ v ∈ row, v < N := by
  intro row hrow v hv
  unfold argsortMat at hrow
  obtain ⟨r, hr, rfl⟩ := List.mem_map.mp hrow
  have := argsortRow_mem_lt r v hv
  rwa [hsq r hr] at this

theorem argsortRow_head_of_uniqueMin (row : List ℝ) (i : ℕ) (hi : i < row.length)
    (hmin : ∀ j < row.length, j ≠ i → row.getD i 0 < row.getD j 0) :
    ∃ t, argsortRow row = i :: t := by
  have hne : argsortRow row ≠ [] := by
    intro hcon
    have := argsortRow_length row
    rw [hcon] at this
    simp only [List.length_nil] at this
    omega
  obtain ⟨a, t, hat⟩ := List.exists_cons_of_ne_nil hne
  refine ⟨t, ?_⟩
  rw [hat]
  have hmem : i ∈ a :: t := by rw [← hat]; exact argsortRow_mem_self row i hi
  rcases List.mem_cons.mp hmem with rfl | hit
  · rfl
  · exfalso
    have hsorted := argsortRow_sorted row
    rw [hat] at hsorted
    have hrel : keyLe row a i := (List.sorted_cons.mp hsorted).1 i hit
    have ha : a < row.length := by
      apply argsortRow_mem_lt row
      rw [hat]
      exact List.mem_cons_self a t
    have hai : a ≠ i := by
      rintro rfl
      have hnd : (argsortRow row).Nodup :=
        (argsortRow_perm row).nodup_iff.mpr (List.nodup_range _)
      rw [hat] at hnd
      exact (List.nodup_cons.mp hnd).1 hit
    exact absurd hrel (not_le.mpr (hmin a ha hai))

/-! ### The inverted-index accumulation (Jaccard step) -/

theorem mem_invIndexCol {V : List (List ℝ)} {N j r : ℕ} :
    r ∈ invIndexCol V N j ↔ r < N ∧ get2 V r j ≠ 0 := by
  simp [invIndexCol, List.mem_filter]

theorem invIndexCol_nodup (V : List (List ℝ)) (N j : ℕ) : (invIndexCol V N j).Nodup :=
  (List.nodup_range N).filter _

theorem indNonZero_nodup (V : List (List ℝ)) (N i : ℕ) : (indNonZero V N i).Nodup :=
  (List.nodup_range N).filter _

theorem setAdd_foldl_length (rs : List ℕ) (f : ℕ → ℝ) (acc : List ℝ) :
    (rs.foldl (fun a r => a.set r (a.getD r 0 + f r)) acc).length = acc.length := by
  induction rs generalizing acc with
  | nil => rfl
  | cons r rs ih =>
    simp only [List.foldl_cons]
    rw [ih]
    exact List.length_set _ _ _

theorem sum_filter_eq_single (l : List ℕ) (hnd : l.Nodup) (f : ℕ → ℝ) (t : ℕ) :
    ((l.filter (fun r => decide (r = t))).map f).sum = if t ∈ l then f t else 0 := by
  induction l with
  | nil => simp
  | cons a l ih =>
    obtain ⟨hal, hndl⟩ := List.nodup_cons.mp hnd
    by_cases hat : a = t
    · subst hat
      rw [List.filter_cons_of_pos (by simp)]
      have hnot : a ∉ l := hal
      rw [List.map_cons, List.sum_cons, ih hndl, if_neg hnot, if_pos (List.mem_cons_self a l)]
      ring
    · rw [List.filter_cons_of_neg (by simpa using hat)]
      rw [ih hndl]
      by_cases htl : t ∈ l
      · rw [if_pos htl, if_pos (List.mem_cons_of_mem a htl)]
      · rw [if_neg htl, if_neg (fun hc => (List.mem_cons.mp hc).elim
          (fun he => hat he.symm) htl)]

theorem setAdd_foldl_getD (rs : List ℕ) (hnd : rs.Nodup) (f : ℕ → ℝ) (acc : List ℝ)
    (t : ℕ) (ht : t < acc.length) :
    (rs.foldl (fun a r => a.set r (a.getD r 0 + f r)) acc).getD t 0 =
      acc.getD t 0 + (if t ∈ rs then f t else 0) := by
  rw [← sum_filter_eq_single rs hnd f t]
  induction rs generalizing acc with
  | nil => simp
  | cons r rs ih =>
    obtain ⟨_, hndr⟩ := List.nodup_cons.mp hnd
    simp only [List.foldl_cons]
    rw [ih hndr _ (by rw [List.length_set]; exact ht)]
    by_cases hrt : r = t
    · subst hrt
      rw [List.filter_cons_of_pos (by simp), List.map_cons, List.sum_cons]
      have : (acc.set r (acc.getD r 0 + f r)).getD r 0 = acc.getD r 0 + f r := by
        rw [List.getD_eq_getElem _ _ (by rw [List.length_set]; exact ht)]
        rw [List.getElem_set_self]
      rw [this]
      ring
    · rw [List.filter_cons_of_neg (by simpa using hrt)]
      have : (acc.set r (acc.getD r 0 + f r)).getD t 0 = acc.getD t 0 := by
        rw [List.getD_eq_getElem?_getD, List.getElem?_set_ne hrt,
          ← List.getD_eq_getElem?_getD]
      rw [this]

theorem tempMin_inner_getD (V : List (List ℝ)) (N i j t : ℕ) (acc : List ℝ)
    (ht : t < acc.length) :
    ((invIndexCol V N j).foldl
        (fun a2 r => a2.set r (a2.getD r 0 + min (get2 V i j) (get2 V r j))) acc).getD t 0 =
      acc.getD t 0 +
        (if t < N ∧ get2 V t j ≠ 0 then min (get2 V i j) (get2 V t j) else 0) := by
  rw [setAdd_foldl_getD _ (invIndexCol_nodup V N j) _ acc t ht]
  congr 1
  by_cases h : t ∈ invIndexCol V N j
  · rw [if_pos h, if_pos (mem_invIndexCol.mp h)]
  · rw [if_neg h, if_neg (fun hc => h (mem_invIndexCol.mpr hc))]

theorem tempMin_fold_getD (V : List (List ℝ)) (N i t : ℕ) (cols : List ℕ) :
    ∀ acc : List ℝ, t < acc.length →
      (cols.foldl (fun a j => (invIndexCol V N j).foldl
          (fun a2 r => a2.set r (a2.getD r 0 + min (get2 V i j) (get2 V r j))) a)
          acc).getD t 0 =
        acc.getD t 0 +
          (cols.map (fun j => if t < N ∧ get2 V t j ≠ 0
            then min (get2 V i j) (get2 V t j) else 0)).sum := by
  induction cols with
  | nil => intro acc _; simp
  | cons j cols ih =>
    intro acc ht
    simp only [List.foldl_cons, List.map_cons, List.sum_cons]
    rw [ih _ (by rw [setAdd_foldl_length]; exact ht)]
    rw [tempMin_inner_getD V N i j t acc ht]
    ring

theorem sum_filter_range_map (p : ℕ → Prop) [DecidablePred p] (g : ℕ → ℝ) (N : ℕ) :
    (((List.range N).filter (fun j => decide (p j))).map g).sum =
      ∑ j ∈ (Finset.range N).filter p, g j := by
  induction N with
  | zero => simp
  | succ n ih =>
    rw [List.range_succ, List.filter_append, List.map_append, List.sum_append, ih]
    rw [Finset.range_succ, Finset.filter_insert]
    by_cases hp : p n
    · rw [if_pos hp, Finset.sum_insert (by simp)]
      have hfil : (List.filter (fun j => decide (p j)) [n]) = [n] := by simp [hp]
      rw [hfil]
      simp [add_comm]
    · rw [if_neg hp]
      have hfil : (List.filter (fun j => decide (p j)) [n]) = [] := by simp [hp]
      rw [hfil]
      simp

theorem tempMinList_getD (V : List (List ℝ)) (N i r : ℕ) (hr : r < N) :
    (tempMinList V N i).getD r 0 =
      ∑ j ∈ (Finset.range N).filter
          (fun j => get2 V i j ≠ 0 ∧ get2 V r j ≠ 0),
        min (get2 V i j) (get2 V r j) := by
  unfold tempMinList
  rw [tempMin_fold_getD V N i r (indNonZero V N i) (List.replicate N 0)
    (by rw [List.length_replicate]; exact hr)]
  have hrep : (List.replicate N (0 : ℝ)).getD r 0 = 0 := by
    rw [List.getD_eq_getElem _ _ (by rw [List.length_replicate]; exact hr)]
    simp
  rw [hrep, zero_add]
  unfold indNonZero
  have hsimp : ∀ j : ℕ, (if r < N ∧ get2 V r j ≠ 0
      then min (get2 V i j) (get2 V r j) else 0) =
      (if get2 V r j ≠ 0 then min (get2 V i j) (get2 V r j) else 0) := by
    intro j
    by_cases hz : get2 V r j ≠ 0
    · rw [if_pos ⟨hr, hz⟩, if_pos hz]
    · rw [if_neg (fun hc => hz hc.2), if_neg hz]
  simp only [hsimp]
  rw [sum_filter_range_map (fun j => get2 V i j ≠ 0)
    (fun j => if get2 V r j ≠ 0 then min (get2 V i j) (get2 V r j) else 0) N]
  rw [Finset.sum_filter, Finset.sum_filter]
  apply Finset.sum_congr rfl
  intro j _
  by_cases h1 : get2 V i j ≠ 0
  · by_cases h2 : get2 V r j ≠ 0
    · rw [if_pos h1, if_pos h2, if_pos ⟨h1, h2⟩]
    · rw [if_pos h1, if_neg h2, if_neg (fun hc => h2 hc.2)]
  · rw [if_neg h1, if_neg (fun hc => h1 hc.1)]

/-! ### Pipeline-level helper lemmas -/

theorem getD_map_lt {α β : Type} (g : α → β) (l : List α) (i : ℕ) (d : β)
    (hi : i < l.length) :
    (l.map g).getD i d = g (l.get ⟨i, hi⟩) := by
  rw [List.getD_eq_getElem _ _ (by simpa using hi), List.getElem_map]
  rfl

theorem eucDist_self (xs : List ℝ) : eucDist xs xs = 0 := by
  unfold eucDist
  have h : (List.zipWith (fun a b => (a - b) ^ 2) xs xs).sum = 0 := by
    induction xs with
    | nil => simp
    | cons a l ih => simp [ih]
  rw [h, Real.sqrt_zero]

theorem cdistMat_length (feat : List (List ℝ)) : (cdistMat feat).length = feat.length :=
  List.length_map _ _

theorem cdistMat_row_length (feat : List (List ℝ)) :
    ∀ row ∈ cdistMat feat, row.length = feat.length := by
  intro row hrow
  unfold cdistMat at hrow
  obtain ⟨xi, _, rfl⟩ := List.mem_map.mp hrow
  exact List.length_map _ _

theorem pipeRank_getD (feat : List (List ℝ)) (i : ℕ) (hi : i < feat.length) :
    (pipeRank feat).getD i [] = argsortRow ((cdistMat feat).getD i []) := by
  unfold pipeRank argsortMat
  rw [getD_map_lt argsortRow (cdistMat feat) i []
    (by rw [cdistMat_length]; exact hi)]
  rw [List.getD_eq_getElem _ _ (by rw [cdistMat_length]; exact hi)]
  rfl

theorem pipe_expSet_lt (feat : List (List ℝ)) (k1 i : ℕ) (hN : 0 < feat.length) :
    ∀ x ∈ expSet (pipeRank feat) k1 i, x < feat.length := by
  intro x hx
  exact expansionList_mem_lt (pipeRank feat) k1 i feat.length
    (argsortMat_mem_lt (cdistMat feat) feat.length (cdistMat_row_length feat))
    hN x (mem_expSet.mp hx)

theorem pipeV_getD (feat : List (List ℝ)) (k1 i : ℕ) (hi : i < feat.length) :
    (pipeV feat k1).getD i [] =
      vRow (pipeRank feat) (distNormalize (cdistMat feat)) k1 feat.length i := by
  unfold pipeV vMat
  exact getD_range_map _ [] hi

theorem get2_cdistMat (feat : List (List ℝ)) (i j : ℕ) (hi : i < feat.length)
    (hj : j < feat.length) :
    get2 (cdistMat feat) i j = eucDist (feat.getD i []) (feat.getD j []) := by
  unfold get2 cdistMat
  rw [getD_map_lt _ feat i [] hi, getD_map_lt _ feat j 0 (by simpa using hj)]
  rw [List.getD_eq_getElem _ _ hi, List.getD_eq_getElem _ _ hj]
  rfl

/-! ### Claim C1 -/

/-- C1: in the Jaccard fusion step, for every row `i` and gallery row `r`, the
accumulator built through the inverted index satisfies
`temp_min[r] = Σ { min(V[i][j], V[r][j]) : columns j with V[i][j] ≠ 0 and
V[r][j] ≠ 0 }`, and the resulting Jaccard distance is
`jaccard[i][r] = 1 - temp_min[r] / (2 - temp_min[r])`. -/
theorem jaccard_accumulator_is_weighted_intersection (V : List (List ℝ)) (N i r : ℕ)
    (hi : i < N) (hr : r < N) :
    (tempMinList V N i).getD r 0 =
      (∑ j ∈ (Finset.range N).filter
          (fun j => get2 V i j ≠ 0 ∧ get2 V r j ≠ 0),
        min (get2 V i j) (get2 V r j)) ∧
    get2 (jaccardMat V N) i r =
      1 - (tempMinList V N i).getD r 0 / (2 - (tempMinList V N i).getD r 0) := by
  refine ⟨tempMinList_getD V N i r hr, ?_⟩
  exact get2_range_map
    (fun a b => 1 - (tempMinList V N a).getD b 0 / (2 - (tempMinList V N a).getD b 0))
    hi hr (jaccardMat V N) (by unfold jaccardMat; rfl)

/-- Witness for C1 at the concrete matrix `V = [[1,0],[0,1]]`, `i = 0`,
`r = 1`. -/
theorem jaccard_accumulator_is_weighted_intersection_witness :
    ((0:ℕ) < 2 ∧ (1:ℕ) < 2) ∧
      ((tempMinList [[(1:ℝ),0],[0,1]] 2 0).getD 1 0 =
        (∑ j ∈ (Finset.range 2).filter
            (fun j => get2 [[(1:ℝ),0],[0,1]] 0 j ≠ 0 ∧ get2 [[(1:ℝ),0],[0,1]] 1 j ≠ 0),
          min (get2 [[(1:ℝ),0],[0,1]] 0 j) (get2 [[(1:ℝ),0],[0,1]] 1 j)) ∧
      get2 (jaccardMat [[(1:ℝ),0],[0,1]] 2) 0 1 =
        1 - (tempMinList [[(1:ℝ),0],[0,1]] 2 0).getD 1 0 /
          (2 - (tempMinList [[(1:ℝ),0],[0,1]] 2 0).getD 1 0)) :=
  ⟨⟨by norm_num, by norm_num⟩,
    jaccard_accumulator_is_weighted_intersection [[(1:ℝ),0],[0,1]] 2 0 1
      (by norm_num) (by norm_num)⟩

/-! ### Claim C3 -/

/-- C3 counterexample: on the concrete (realizable, each row a permutation)
`initial_rank` below with `k1 = 6` and row `i = 0`, the code's expansion set
(candidate radius `round((6+1)/2) = 4`) is `{0,1,2,3}`, while the expansion
set prescribed by the claim's radius `round(6/2) = 3` is `{0,1,2}`: the claim
that candidates use radius `round(k1/2)` is false of the code. -/
theorem expansion_radius_counterexample :
    expSet [[0,1,2,3,4],[1,0,2,3,4],[2,0,1,3,4],[3,0,4,1,2],[4,3,0,1,2]] 6 0
        = [0,1,2,3] ∧
      uniqueSorted (specExpansionList
        [[0,1,2,3,4],[1,0,2,3,4],[2,0,1,3,4],[3,0,4,1,2],[4,3,0,1,2]] 6 0)
        = [0,1,2] ∧
      codeCandidateRadius 6 = 4 ∧ specCandidateRadius 6 = 3 := by
  decide

/-- C3 (amended): in the k-reciprocal expansion pass, each candidate
`c ∈ R(i)` has its own k-reciprocal set computed by the same reciprocal test
at the halved radius `round((k1+1)/2)` (not `round(k1/2)`; Python half-even
rounding), and the deduplicated expansion set of row `i` consists exactly of
`R(i)` together with the sets `R(c)` of those candidates with
`|R(c) ∩ R(i)| > (2/3)·|R(c)|` (distinct common values against the length of
`c`'s candidate list). -/
theorem expansion_pass_characterization (rank : List (List ℕ)) (k1 i x : ℕ) :
    x ∈ expSet rank k1 i ↔
      x ∈ kReciprocal rank i (k1 + 1) ∨
        ∃ c ∈ kReciprocal rank i (k1 + 1),
          2 * (kReciprocal rank c (codeCandidateRadius k1)).length <
              3 * intersectCount (kReciprocal rank i (k1 + 1))
                (kReciprocal rank c (codeCandidateRadius k1)) ∧
            x ∈ kReciprocal rank c (codeCandidateRadius k1) := by
  rw [mem_expSet]
  unfold codeCandidateRadius
  exact mem_expansionList

/-! ### Claim C4 -/

/-- C4: after the k-reciprocal expansion step, row `i` of `V` sums to `1`
whenever its expansion set is non-empty and to `0` when the set is empty, the
nonzero entries being `exp(-D_norm[i][j])` normalized by their total, where
`D_norm` is the distance matrix divided row-wise by its maximum
(`distNormalize`). -/
theorem v_row_sums (feat : List (List ℝ)) (k1 i : ℕ) (hi : i < feat.length) :
    (expSet (pipeRank feat) k1 i ≠ [] → ((pipeV feat k1).getD i []).sum = 1) ∧
    (expSet (pipeRank feat) k1 i = [] → ((pipeV feat k1).getD i []).sum = 0) ∧
    (∀ j ∈ expSet (pipeRank feat) k1 i,
      get2 (pipeV feat k1) i j =
        expWeight (distNormalize (cdistMat feat)) i j /
          weightTot (pipeRank feat) (distNormalize (cdistMat feat)) k1 i) := by
  have hN : 0 < feat.length := lt_of_le_of_lt (Nat.zero_le i) hi
  refine ⟨?_, ?_, ?_⟩
  · intro hne
    rw [pipeV_getD feat k1 i hi]
    exact vRow_sum_of_nonempty _ _ k1 feat.length i
      (pipe_expSet_lt feat k1 i hN) hne
  · intro he
    rw [pipeV_getD feat k1 i hi]
    exact vRow_sum_of_empty _ _ k1 feat.length i he
  · intro j hj
    have hjN : j < feat.length := pipe_expSet_lt feat k1 i hN j hj
    unfold get2
    rw [pipeV_getD feat k1 i hi]
    unfold vRow
    rw [getD_range_map _ (0:ℝ) hjN, if_pos hj]

/-! ### Claim C9 -/

/-- C9 (implicit): the self-distance diagonal of `cdist` is exactly `0`; when
`i` is the unique minimizer of its own distance row it appears in its own
top-`(k1+1)` ranked list; and whenever `i` appears in its own top-`(k1+1)`
list, the expansion set of row `i` contains `i` (hence is non-empty), the
weight normalization divides by a strictly positive sum, and row `i` of `V`
sums to `1`. -/
theorem self_inclusion_makes_v_rows_sum_one (feat : List (List ℝ)) (k1 : ℕ) :
    (∀ i, i < feat.length → get2 (cdistMat feat) i i = 0) ∧
    (∀ i, i < feat.length →
      (∀ j, j < feat.length → j ≠ i →
        get2 (cdistMat feat) i i < get2 (cdistMat feat) i j) →
      i ∈ ((pipeRank feat).getD i []).take (k1 + 1)) ∧
    (∀ i, i < feat.length → i ∈ ((pipeRank feat).getD i []).take (k1 + 1) →
      i ∈ expSet (pipeRank feat) k1 i ∧
      expSet (pipeRank feat) k1 i ≠ [] ∧
      0 < weightTot (pipeRank feat) (distNormalize (cdistMat feat)) k1 i ∧
      ((pipeV feat k1).getD i []).sum = 1) := by
  refine ⟨?_, ?_, ?_⟩
  · intro i hi
    rw [get2_cdistMat feat i i hi hi]
    exact eucDist_self _
  · intro i hi hmin
    have hrowlen : ((cdistMat feat).getD i []).length = feat.length := by
      apply cdistMat_row_length
      rw [List.getD_eq_getElem _ _ (by rw [cdistMat_length]; exact hi)]
      exact List.getElem_mem _
    have hmin' : ∀ j, j < ((cdistMat feat).getD i []).length → j ≠ i →
        ((cdistMat feat).getD i []).getD i 0 < ((cdistMat feat).getD i []).getD j 0 := by
      intro j hj hji
      rw [hrowlen] at hj
      exact hmin j hj hji
    obtain ⟨t, ht⟩ := argsortRow_head_of_uniqueMin ((cdistMat feat).getD i []) i
      (by rw [hrowlen]; exact hi) hmin'
    rw [pipeRank_getD feat i hi, ht]
    rw [List.take_cons (Nat.succ_pos k1)]
    exact List.mem_cons_self _ _
  · intro i hi hmem
    have hN : 0 < feat.length := lt_of_le_of_lt (Nat.zero_le i) hi
    have hbase : i ∈ kReciprocal (pipeRank feat) i (k1 + 1) :=
      self_mem_kReciprocal (pipeRank feat) i (k1 + 1) hmem
    have hexp : i ∈ expSet (pipeRank feat) k1 i :=
      mem_expSet.mpr (base_subset_expansionList (pipeRank feat) k1 i i hbase)
    have hne : expSet (pipeRank feat) k1 i ≠ [] := List.ne_nil_of_mem hexp
    refine ⟨hexp, hne, weightTot_pos _ _ k1 i hne, ?_⟩
    rw [pipeV_getD feat k1 i hi]
    exact vRow_sum_of_nonempty _ _ k1 feat.length i
      (pipe_expSet_lt feat k1 i hN) hne

/-! ### Concrete evaluation of the pipeline on two-point inputs -/

theorem eucDist_single (a b : ℝ) : eucDist [a] [b] = Real.sqrt ((a - b) ^ 2) := by
  unfold eucDist
  simp

theorem cdistMat_pair (c : ℝ) (hc : 0 ≤ c) :
    cdistMat [[0], [c]] = [[0, c], [c, 0]] := by
  have h1 : eucDist [(0:ℝ)] [c] = c := by
    rw [eucDist_single, zero_sub, neg_sq, Real.sqrt_sq hc]
  have h2 : eucDist [c] [(0:ℝ)] = c := by
    rw [eucDist_single, sub_zero, Real.sqrt_sq hc]
  unfold cdistMat
  simp only [List.map_cons, List.map_nil]
  rw [h1, h2, eucDist_self, eucDist_self]

theorem rowMax_pair_first (c : ℝ) (hc : 0 ≤ c) : rowMax [0, c] = c := by
  unfold rowMax
  simp only [List.headD_cons, List.foldl_cons, List.foldl_nil, max_self]
  exact max_eq_right hc

theorem rowMax_pair_second (c : ℝ) (hc : 0 ≤ c) : rowMax [c, 0] = c := by
  unfold rowMax
  simp only [List.headD_cons, List.foldl_cons, List.foldl_nil, max_self]
  exact max_eq_left hc

theorem distNormalize_pair (c : ℝ) (hc : 0 < c) :
    distNormalize [[0, c], [c, 0]] = [[0, 1], [1, 0]] := by
  unfold distNormalize
  simp only [List.map_cons, List.map_nil]
  rw [rowMax_pair_first c hc.le, rowMax_pair_second c hc.le]
  rw [zero_div, div_self (ne_of_gt hc)]

theorem argsortRow_pair_first (c : ℝ) (hc : 0 ≤ c) : argsortRow [0, c] = [0, 1] := by
  unfold argsortRow
  rw [show ([(0:ℝ), c]).length = 2 from rfl, show List.range 2 = [0, 1] from rfl]
  simp only [List.insertionSort, List.orderedInsert]
  rw [if_pos]
  unfold keyLe
  simpa using hc

theorem argsortRow_pair_second (c : ℝ) (hc : 0 < c) : argsortRow [c, 0] = [1, 0] := by
  unfold argsortRow
  rw [show ([c, (0:ℝ)]).length = 2 from rfl, show List.range 2 = [0, 1] from rfl]
  simp only [List.insertionSort, List.orderedInsert]
  rw [if_neg]
  unfold keyLe
  simpa using hc

theorem pipeRank_pair (c : ℝ) (hc : 0 < c) :
    pipeRank [[0], [c]] = [[0, 1], [1, 0]] := by
  unfold pipeRank argsortMat
  rw [cdistMat_pair c hc.le]
  simp only [List.map_cons, List.map_nil]
  rw [argsortRow_pair_first c hc.le, argsortRow_pair_second c hc]

theorem vMat_pair_k20 :
    vMat [[0,1],[1,0]] [[(0:ℝ),1],[1,0]] 20 2 =
      [[1 / (1 + Real.exp (-1)), Real.exp (-1) / (1 + Real.exp (-1))],
       [Real.exp (-1) / (1 + Real.exp (-1)), 1 / (1 + Real.exp (-1))]] := by
  have hS0 : expSet [[0,1],[1,0]] 20 0 = [0, 1] := by decide
  have hS1 : expSet [[0,1],[1,0]] 20 1 = [0, 1] := by decide
  have hW0 : weightTot [[0,1],[1,0]] [[(0:ℝ),1],[1,0]] 20 0 = 1 + Real.exp (-1) := by
    unfold weightTot
    rw [hS0]
    simp [expWeight, get2, Real.exp_zero]
  have hW1 : weightTot [[0,1],[1,0]] [[(0:ℝ),1],[1,0]] 20 1 = 1 + Real.exp (-1) := by
    unfold weightTot
    rw [hS1]
    simp [expWeight, get2, Real.exp_zero, add_comm]
  unfold vMat vRow
  rw [show List.range 2 = [0, 1] from rfl]
  simp only [List.map_cons, List.map_nil]
  rw [hS0, hS1, hW0, hW1]
  norm_num [expWeight, get2, Real.exp_zero]

theorem pipeV_pair_k20 (c : ℝ) (hc : 0 < c) :
    pipeV [[0], [c]] 20 =
      [[1 / (1 + Real.exp (-1)), Real.exp (-1) / (1 + Real.exp (-1))],
       [Real.exp (-1) / (1 + Real.exp (-1)), 1 / (1 + Real.exp (-1))]] := by
  unfold pipeV
  rw [pipeRank_pair c hc, cdistMat_pair c hc.le, distNormalize_pair c hc]
  exact vMat_pair_k20

theorem lqe_pair_k6 :
    lqeMat [[0,1],[1,0]]
      [[1 / (1 + Real.exp (-1)), Real.exp (-1) / (1 + Real.exp (-1))],
       [Real.exp (-1) / (1 + Real.exp (-1)), 1 / (1 + Real.exp (-1))]] 6 2 =
      [[1/2, 1/2], [1/2, 1/2]] := by
  unfold lqeMat
  rw [if_neg (by norm_num)]
  rw [show List.range 2 = [0, 1] from rfl]
  simp only [List.map_cons, List.map_nil, List.getD_cons_zero, List.getD_cons_succ]
  rw [show (List.take 6 [0, 1]) = [0, 1] from rfl,
    show (List.take 6 [1, 0]) = [1, 0] from rfl]
  simp only [List.map_cons, List.map_nil, List.sum_cons, List.sum_nil]
  rw [show get2 [[1 / (1 + Real.exp (-1)), Real.exp (-1) / (1 + Real.exp (-1))],
       [Real.exp (-1) / (1 + Real.exp (-1)), 1 / (1 + Real.exp (-1))]] 0 0 =
      1 / (1 + Real.exp (-1)) from rfl]
  rw [show get2 [[1 / (1 + Real.exp (-1)), Real.exp (-1) / (1 + Real.exp (-1))],
       [Real.exp (-1) / (1 + Real.exp (-1)), 1 / (1 + Real.exp (-1))]] 0 1 =
      Real.exp (-1) / (1 + Real.exp (-1)) from rfl]
  rw [show get2 [[1 / (1 + Real.exp (-1)), Real.exp (-1) / (1 + Real.exp (-1))],
       [Real.exp (-1) / (1 + Real.exp (-1)), 1 / (1 + Real.exp (-1))]] 1 0 =
      Real.exp (-1) / (1 + Real.exp (-1)) from rfl]
  rw [show get2 [[1 / (1 + Real.exp (-1)), Real.exp (-1) / (1 + Real.exp (-1))],
       [Real.exp (-1) / (1 + Real.exp (-1)), 1 / (1 + Real.exp (-1))]] 1 1 =
      1 / (1 + Real.exp (-1)) from rfl]
  have hT : (1:ℝ) + Real.exp (-1) ≠ 0 := by positivity
  norm_num
  refine ⟨⟨?_, ?_⟩, ?_, ?_⟩
  all_goals field_simp
  all_goals ring

theorem pipeV2_pair (c : ℝ) (hc : 0 < c) :
    pipeV2 [[0], [c]] 20 6 = [[1/2, 1/2], [1/2, 1/2]] := by
  unfold pipeV2
  rw [pipeRank_pair c hc, pipeV_pair_k20 c hc]
  exact lqe_pair_k6

theorem indNonZero_half_0 :
    indNonZero [[(1:ℝ)/2, 1/2], [1/2, 1/2]] 2 0 = [0, 1] := by
  unfold indNonZero
  rw [show List.range 2 = [0, 1] from rfl]
  rw [List.filter_cons_of_pos, List.filter_cons_of_pos, List.filter_nil]
  · exact decide_eq_true (by norm_num [get2])
  · exact decide_eq_true (by norm_num [get2])

theorem indNonZero_half_1 :
    indNonZero [[(1:ℝ)/2, 1/2], [1/2, 1/2]] 2 1 = [0, 1] := by
  unfold indNonZero
  rw [show List.range 2 = [0, 1] from rfl]
  rw [List.filter_cons_of_pos, List.filter_cons_of_pos, List.filter_nil]
  · exact decide_eq_true (by norm_num [get2])
  · exact decide_eq_true (by norm_num [get2])

theorem invIndexCol_half_0 :
    invIndexCol [[(1:ℝ)/2, 1/2], [1/2, 1/2]] 2 0 = [0, 1] := by
  unfold invIndexCol
  rw [show List.range 2 = [0, 1] from rfl]
  rw [List.filter_cons_of_pos, List.filter_cons_of_pos, List.filter_nil]
  · exact decide_eq_true (by norm_num [get2])
  · exact decide_eq_true (by norm_num [get2])

theorem invIndexCol_half_1 :
    invIndexCol [[(1:ℝ)/2, 1/2], [1/2, 1/2]] 2 1 = [0, 1] := by
  unfold invIndexCol
  rw [show List.range 2 = [0, 1] from rfl]
  rw [List.filter_cons_of_pos, List.filter_cons_of_pos, List.filter_nil]
  · exact decide_eq_true (by norm_num [get2])
  · exact decide_eq_true (by norm_num [get2])

theorem tempMin_half_0 :
    tempMinList [[(1:ℝ)/2, 1/2], [1/2, 1/2]] 2 0 = [1, 1] := by
  unfold tempMinList
  rw [indNonZero_half_0]
  simp only [List.foldl_cons, List.foldl_nil]
  rw [invIndexCol_half_0, invIndexCol_half_1]
  simp only [List.foldl_cons, List.foldl_nil]
  norm_num [get2, List.set, List.getD_cons_zero, List.getD_cons_succ,
    List.replicate]

theorem tempMin_half_1 :
    tempMinList [[(1:ℝ)/2, 1/2], [1/2, 1/2]] 2 1 = [1, 1] := by
  unfold tempMinList
  rw [indNonZero_half_1]
  simp only [List.foldl_cons, List.foldl_nil]
  rw [invIndexCol_half_0, invIndexCol_half_1]
  simp only [List.foldl_cons, List.foldl_nil]
  norm_num [get2, List.set, List.getD_cons_zero, List.getD_cons_succ,
    List.replicate]

theorem jaccard_half :
    jaccardMat [[(1:ℝ)/2, 1/2], [1/2, 1/2]] 2 = [[0, 0], [0, 0]] := by
  unfold jaccardMat
  rw [show List.range 2 = [0, 1] from rfl]
  simp only [List.map_cons, List.map_nil]
  rw [tempMin_half_0, tempMin_half_1]
  norm_num [List.getD_cons_zero, List.getD_cons_succ]

theorem pipeJaccard_pair (c : ℝ) (hc : 0 < c) :
    pipeJaccard [[0], [c]] 20 6 = [[0, 0], [0, 0]] := by
  unfold pipeJaccard
  rw [pipeV2_pair c hc]
  exact jaccard_half

theorem kReRanking_pair (c : ℝ) (hc : 0 < c) (lam : ℝ) :
    kReRanking [[0], [c]] 20 6 lam = [[0, c * lam], [c * lam, 0]] := by
  unfold kReRanking
  rw [show ([[(0:ℝ)], [c]]).length = 2 from rfl, show List.range 2 = [0, 1] from rfl]
  simp only [List.map_cons, List.map_nil]
  rw [pipeJaccard_pair c hc, cdistMat_pair c hc.le]
  norm_num [get2]

/-! ### Structure of the returned matrix -/

theorem kReRanking_length (feat : List (List ℝ)) (k1 k2 : ℕ) (lam : ℝ) :
    (kReRanking feat k1 k2 lam).length = feat.length := by
  unfold kReRanking
  rw [List.length_map, List.length_range]

theorem kReRanking_row_length (feat : List (List ℝ)) (k1 k2 : ℕ) (lam : ℝ) :
    ∀ row ∈ kReRanking feat k1 k2 lam, row.length = feat.length := by
  intro row hrow
  unfold kReRanking at hrow
  obtain ⟨i, _, rfl⟩ := List.mem_map.mp hrow
  rw [List.length_map, List.length_range]

theorem kReRanking_get2 (feat : List (List ℝ)) (k1 k2 : ℕ) (lam : ℝ) (i r : ℕ)
    (hi : i < feat.length) (hr : r < feat.length) :
    get2 (kReRanking feat k1 k2 lam) i r =
      get2 (pipeJaccard feat k1 k2) i r * (1 - lam) + get2 (cdistMat feat) i r * lam :=
  get2_range_map _ hi hr _ (by unfold kReRanking; rfl)

/-! ### Claim C2 -/

/-- C2 counterexample: on the two-row input `[[0],[1]]` (one query item,
`m = 1`, and one gallery item, `A = 2`) the matrix returned by `k_re_ranking`
has 2 rows, not `m = 1`: the returned matrix is not the `m × (A-m)`
query×gallery restriction the claim asserts. -/
theorem output_not_restricted_counterexample :
    (kReRanking [[(0:ℝ)], [1]] 20 6 (3/10)).length = 2 ∧
      (kReRanking [[(0:ℝ)], [1]] 20 6 (3/10)).length ≠ 1 := by
  have h := kReRanking_length [[(0:ℝ)], [1]] 20 6 (3/10)
  constructor
  · rw [h]
    rfl
  · rw [h]
    simp

/-- C2 (amended): `k_re_ranking` computes
`final[i][r] = jaccard[i][r]·(1-λ) + D[i][r]·λ` over the FULL square index
range and returns the whole `A × A` matrix (`A` = number of input rows); the
restriction to the query×gallery block (rows `0..m-1`, columns `m..A-1`) is
commented out in the source and not applied. -/
theorem final_fusion_full_square (feat : List (List ℝ)) (k1 k2 : ℕ) (lam : ℝ) :
    (kReRanking feat k1 k2 lam).length = feat.length ∧
    (∀ row ∈ kReRanking feat k1 k2 lam, row.length = feat.length) ∧
    (∀ i r, i < feat.length → r < feat.length →
      get2 (kReRanking feat k1 k2 lam) i r =
        get2 (pipeJaccard feat k1 k2) i r * (1 - lam) +
          get2 (cdistMat feat) i r * lam) :=
  ⟨kReRanking_length feat k1 k2 lam, kReRanking_row_length feat k1 k2 lam,
    fun i r hi hr => kReRanking_get2 feat k1 k2 lam i r hi hr⟩

/-- Witness for the amended C2 at `feat = [[0],[1]]`, `i = 0`, `r = 1`. -/
theorem final_fusion_full_square_witness :
    ((0:ℕ) < ([[(0:ℝ)], [1]]).length ∧ (1:ℕ) < ([[(0:ℝ)], [1]]).length) ∧
    get2 (kReRanking [[(0:ℝ)], [1]] 20 6 (3/10)) 0 1 =
      get2 (pipeJaccard [[(0:ℝ)], [1]] 20 6) 0 1 * (1 - 3/10) +
        get2 (cdistMat [[(0:ℝ)], [1]]) 0 1 * (3/10) :=
  ⟨⟨by simp, by simp⟩,
    (final_fusion_full_square [[(0:ℝ)], [1]] 20 6 (3/10)).2.2 0 1 (by simp) (by simp)⟩

/-! ### Claim C5 -/

theorem pairwiseDistSelf_pair :
    pairwiseDistSelf [[(0:ℝ)], [1]] = [[0, 0], [2, 0]] := by
  unfold pairwiseDistSelf dotProd
  rw [show ([[(0:ℝ)], [1]]).length = 2 from rfl, show List.range 2 = [0, 1] from rfl]
  norm_num

/-- C5 (code bug): the square all-pairs Euclidean branch of
`pairwise_distance` computes `D[i][j] = 2·‖x_i‖² − 2·x_i·x_j`, which is not
symmetric: on features `[[0],[1]]` it yields `D[0][1] = 0` but `D[1][0] = 2`
(the symmetric squared Euclidean distance would give `1` for both). -/
theorem pairwise_distance_square_asymmetric :
    get2 (pairwiseDistSelf [[(0:ℝ)], [1]]) 0 1 = 0 ∧
    get2 (pairwiseDistSelf [[(0:ℝ)], [1]]) 1 0 = 2 ∧
    ¬ (get2 (pairwiseDistSelf [[(0:ℝ)], [1]]) 0 1 =
        get2 (pairwiseDistSelf [[(0:ℝ)], [1]]) 1 0) := by
  rw [pairwiseDistSelf_pair]
  norm_num [get2]

/-! ### Claim C6 -/

/-- C6 counterexample: for input `[[0],[10]]` with the default `k1=20, k2=6`
and `lambda = 1 ∈ [0,1]`, every Jaccard entry is `0 ∈ [0,1]`, yet the final
matrix holds the unnormalized original distance `10`, far outside `[0, 1+ε]`:
the fused `original_dist` term is unbounded, so the claimed bound is false. -/
theorem final_dist_exceeds_bound_counterexample :
    ((0:ℝ) ≤ 1 ∧ (1:ℝ) ≤ 1) ∧
    pipeJaccard [[(0:ℝ)], [10]] 20 6 = [[0, 0], [0, 0]] ∧
    get2 (kReRanking [[(0:ℝ)], [10]] 20 6 1) 0 1 = 10 ∧
    ¬ (get2 (kReRanking [[(0:ℝ)], [10]] 20 6 1) 0 1 ≤ 1 + 1/1000) := by
  refine ⟨⟨by norm_num, le_refl 1⟩, pipeJaccard_pair 10 (by norm_num), ?_, ?_⟩
  · rw [kReRanking_pair 10 (by norm_num) 1]
    norm_num [get2]
  · rw [kReRanking_pair 10 (by norm_num) 1]
    norm_num [get2]

/-- C6 (amended): the final entries lie in `[0,1] ⊆ [0,1+ε]` for `λ ∈ [0,1]`
and a Jaccard entry in `[0,1]` provided additionally the corresponding
original-distance entry lies in `[0,1]` (the fusion uses the raw
`original_dist`, not its row-normalized copy, so no bound holds without that
extra hypothesis). -/
theorem final_dist_bounded (feat : List (List ℝ)) (k1 k2 : ℕ) (lam : ℝ) (i r : ℕ)
    (hi : i < feat.length) (hr : r < feat.length)
    (hl0 : 0 ≤ lam) (hl1 : lam ≤ 1)
    (hj0 : 0 ≤ get2 (pipeJaccard feat k1 k2) i r)
    (hj1 : get2 (pipeJaccard feat k1 k2) i r ≤ 1)
    (hd0 : 0 ≤ get2 (cdistMat feat) i r)
    (hd1 : get2 (cdistMat feat) i r ≤ 1) :
    0 ≤ get2 (kReRanking feat k1 k2 lam) i r ∧
      get2 (kReRanking feat k1 k2 lam) i r ≤ 1 := by
  rw [kReRanking_get2 feat k1 k2 lam i r hi hr]
  constructor
  · nlinarith
  · nlinarith

/-- Witness for the amended C6 at `feat = [[0],[1]]`, `λ = 3/10`, entry
`(0,1)`. -/
theorem final_dist_bounded_witness :
    ((0:ℕ) < ([[(0:ℝ)], [1]]).length ∧ (1:ℕ) < ([[(0:ℝ)], [1]]).length ∧
      (0:ℝ) ≤ 3/10 ∧ (3:ℝ)/10 ≤ 1 ∧
      0 ≤ get2 (pipeJaccard [[(0:ℝ)], [1]] 20 6) 0 1 ∧
      get2 (pipeJaccard [[(0:ℝ)], [1]] 20 6) 0 1 ≤ 1 ∧
      0 ≤ get2 (cdistMat [[(0:ℝ)], [1]]) 0 1 ∧
      get2 (cdistMat [[(0:ℝ)], [1]]) 0 1 ≤ 1) ∧
    (0 ≤ get2 (kReRanking [[(0:ℝ)], [1]] 20 6 (3/10)) 0 1 ∧
      get2 (kReRanking [[(0:ℝ)], [1]] 20 6 (3/10)) 0 1 ≤ 1) := by
  have hj : get2 (pipeJaccard [[(0:ℝ)], [1]] 20 6) 0 1 = 0 := by
    rw [pipeJaccard_pair 1 (by norm_num)]
    norm_num [get2]
  have hd : get2 (cdistMat [[(0:ℝ)], [1]]) 0 1 = 1 := by
    rw [cdistMat_pair 1 (by norm_num)]
    norm_num [get2]
  refine ⟨⟨by simp, by simp, by norm_num, by norm_num,
    by rw [hj], by rw [hj]; norm_num, by rw [hd]; norm_num, by rw [hd]⟩, ?_⟩
  exact final_dist_bounded [[(0:ℝ)], [1]] 20 6 (3/10) 0 1 (by simp) (by simp)
    (by norm_num) (by norm_num) (by rw [hj]) (by rw [hj]; norm_num)
    (by rw [hd]; norm_num) (by rw [hd])

/-! ### The `k1 = 0, k2 = 1` pipeline (exercised by malformed-config runs) -/

theorem vMat_pair_k0 :
    vMat [[0,1],[1,0]] [[(0:ℝ),1],[1,0]] 0 2 = [[1, 0], [0, 1]] := by
  have hS0 : expSet [[0,1],[1,0]] 0 0 = [0] := by decide
  have hS1 : expSet [[0,1],[1,0]] 0 1 = [1] := by decide
  have hW0 : weightTot [[0,1],[1,0]] [[(0:ℝ),1],[1,0]] 0 0 = 1 := by
    unfold weightTot
    rw [hS0]
    simp [expWeight, get2, Real.exp_zero]
  have hW1 : weightTot [[0,1],[1,0]] [[(0:ℝ),1],[1,0]] 0 1 = 1 := by
    unfold weightTot
    rw [hS1]
    simp [expWeight, get2, Real.exp_zero]
  unfold vMat vRow
  rw [show List.range 2 = [0, 1] from rfl]
  simp only [List.map_cons, List.map_nil]
  rw [hS0, hS1, hW0, hW1]
  norm_num [expWeight, get2, Real.exp_zero]

theorem indNonZero_id_0 : indNonZero [[(1:ℝ), 0], [0, 1]] 2 0 = [0] := by
  unfold indNonZero
  rw [show List.range 2 = [0, 1] from rfl]
  rw [List.filter_cons_of_pos, List.filter_cons_of_neg, List.filter_nil]
  · norm_num [get2]
  · simp [get2]

theorem indNonZero_id_1 : indNonZero [[(1:ℝ), 0], [0, 1]] 2 1 = [1] := by
  unfold indNonZero
  rw [show List.range 2 = [0, 1] from rfl]
  rw [List.filter_cons_of_neg, List.filter_cons_of_pos, List.filter_nil]
  · simp [get2]
  · norm_num [get2]

theorem invIndexCol_id_0 : invIndexCol [[(1:ℝ), 0], [0, 1]] 2 0 = [0] := by
  unfold invIndexCol
  rw [show List.range 2 = [0, 1] from rfl]
  rw [List.filter_cons_of_pos, List.filter_cons_of_neg, List.filter_nil]
  · norm_num [get2]
  · simp [get2]

theorem invIndexCol_id_1 : invIndexCol [[(1:ℝ), 0], [0, 1]] 2 1 = [1] := by
  unfold invIndexCol
  rw [show List.range 2 = [0, 1] from rfl]
  rw [List.filter_cons_of_neg, List.filter_cons_of_pos, List.filter_nil]
  · simp [get2]
  · norm_num [get2]

theorem tempMin_id_0 : tempMinList [[(1:ℝ), 0], [0, 1]] 2 0 = [1, 0] := by
  unfold tempMinList
  rw [indNonZero_id_0]
  simp only [List.foldl_cons, List.foldl_nil]
  rw [invIndexCol_id_0]
  simp only [List.foldl_cons, List.foldl_nil]
  norm_num [get2, List.set, List.getD_cons_zero, List.getD_cons_succ, List.replicate]

theorem tempMin_id_1 : tempMinList [[(1:ℝ), 0], [0, 1]] 2 1 = [0, 1] := by
  unfold tempMinList
  rw [indNonZero_id_1]
  simp only [List.foldl_cons, List.foldl_nil]
  rw [invIndexCol_id_1]
  simp only [List.foldl_cons, List.foldl_nil]
  norm_num [get2, List.set, List.getD_cons_zero, List.getD_cons_succ, List.replicate]

theorem jaccard_id : jaccardMat [[(1:ℝ), 0], [0, 1]] 2 = [[0, 1], [1, 0]] := by
  unfold jaccardMat
  rw [show List.range 2 = [0, 1] from rfl]
  simp only [List.map_cons, List.map_nil]
  rw [tempMin_id_0, tempMin_id_1]
  norm_num [List.getD_cons_zero, List.getD_cons_succ]

theorem pipeV_pair_k0 (c : ℝ) (hc : 0 < c) :
    pipeV [[0], [c]] 0 = [[1, 0], [0, 1]] := by
  unfold pipeV
  rw [pipeRank_pair c hc, cdistMat_pair c hc.le, distNormalize_pair c hc]
  exact vMat_pair_k0

theorem pipeJaccard_pair_k0 (c : ℝ) (hc : 0 < c) :
    pipeJaccard [[0], [c]] 0 1 = [[0, 1], [1, 0]] := by
  unfold pipeJaccard pipeV2 lqeMat
  rw [if_pos rfl, pipeV_pair_k0 c hc]
  exact jaccard_id

/-! ### Claim C8 -/

/-- C8 counterexample: with the malformed configuration `k1 = 0` (`k1 ≤ 0`),
`k2 = 1`, `lambda = 2 ∉ [0,1]`, `k_re_ranking` does not fail: it runs to
completion on `[[0],[1]]` and returns the ordinary matrix `[[0,1],[1,0]]` —
no configuration error is raised before (or during) computation. -/
theorem malformed_config_runs_counterexample :
    kReRanking [[(0:ℝ)], [1]] 0 1 2 = [[0, 1], [1, 0]] := by
  unfold kReRanking
  rw [show ([[(0:ℝ)], [1]]).length = 2 from rfl, show List.range 2 = [0, 1] from rfl]
  simp only [List.map_cons, List.map_nil]
  rw [pipeJaccard_pair_k0 1 (by norm_num), cdistMat_pair 1 (by norm_num)]
  norm_num [get2]

/-- C8 (amended): there is no fail-fast configuration validation.
`k_re_ranking` runs to completion (returning a matrix with one row per input
row) for EVERY `k1`, `k2` and `lambda`, including `k1 = 0`, `k2 = 0` and
`lambda ∉ [0,1]`; and an unknown protocol name does not raise a configuration
error before computation — `evaluate_all` computes mAP and the CMC scores
first and only then fails with a `KeyError` (modelled as `none`) when looking
up the unknown name in its protocol dictionary. -/
theorem no_config_validation (feat : List (List ℝ)) (k1 k2 : ℕ) (lam : ℝ)
    (cmcF : List (List ℝ) → CmcFlags → List ℝ) (d : List (List ℝ)) (s : String)
    (h1 : s ≠ "allshots") (h2 : s ≠ "market1501") (h3 : s ≠ "dukemtmc") :
    (kReRanking feat k1 k2 lam).length = feat.length ∧
    evaluateAll cmcF d s = none := by
  refine ⟨kReRanking_length feat k1 k2 lam, ?_⟩
  have hb1 : (s == "allshots") = false := beq_eq_false_iff_ne.mpr h1
  have hb3 : (s == "dukemtmc") = false := beq_eq_false_iff_ne.mpr h3
  unfold evaluateAll cmcConfigs
  rw [if_neg h2]
  simp [List.lookup, hb1, hb3]

/-- Witness for the amended C8 at `k1 = 0`, `k2 = 1`, `lambda = 2` and the
unknown protocol name `"cuhk03"`. -/
theorem no_config_validation_witness :
    ("cuhk03" ≠ "allshots" ∧ "cuhk03" ≠ "market1501" ∧ "cuhk03" ≠ "dukemtmc") ∧
    ((kReRanking [[(0:ℝ)], [1]] 0 1 2).length = 2 ∧
      evaluateAll (fun _ _ => [(1:ℝ)]) [] "cuhk03" = none) := by
  have h := no_config_validation [[(0:ℝ)], [1]] 0 1 2 (fun _ _ => [(1:ℝ)]) [] "cuhk03"
    (by decide) (by decide) (by decide)
  exact ⟨⟨by decide, by decide, by decide⟩, ⟨by rw [h.1]; rfl, h.2⟩⟩

/-! ### Claim C7 -/

/-- C7 counterexample: for the protocol name `"cuhk03"` (an "other protocol"
in the claim's sense) the evaluation entry point returns no scalar at all
(the protocol dictionary holds the key `"dukemtmc"`, not the dataset name, so
the lookup fails), while the claim predicts the top-1 CMC score computed with
flags `(False, True, False)` — which here would be `some (1/2)`. -/
theorem unknown_protocol_no_scalar_counterexample :
    evaluateAll (fun _ _ => [(1:ℝ)/2]) [] "cuhk03" = none ∧
    ((fun (_ : List (List ℝ)) (_ : CmcFlags) => [(1:ℝ)/2]) []
        ⟨false, true, false⟩).head? = some (1/2) :=
  ⟨rfl, rfl⟩

/-- C7 (amended): the returned scalar is the rank-1 (index 0) CMC score of the
active protocol for the two supported names — `market1501` with flags
`(separate_camera_set = False, single_gallery_shot = False,
first_match_break = True)` and `dukemtmc` with flags `(False, True, False)`;
the always-present `allshots` name returns the `(False, False, False)` score;
EVERY other protocol name produces a failed dictionary lookup (no scalar)
rather than the dukemtmc-style score. -/
theorem cmc_protocol_selection (cmcF : List (List ℝ) → CmcFlags → List ℝ)
    (d : List (List ℝ)) :
    evaluateAll cmcF d "market1501" = (cmcF d ⟨false, false, true⟩).head? ∧
    evaluateAll cmcF d "dukemtmc" = (cmcF d ⟨false, true, false⟩).head? ∧
    evaluateAll cmcF d "allshots" = (cmcF d ⟨false, false, false⟩).head? ∧
    (∀ s : String, s ≠ "allshots" → s ≠ "market1501" → s ≠ "dukemtmc" →
      evaluateAll cmcF d s = none) := by
  refine ⟨rfl, rfl, rfl, ?_⟩
  intro s h1 h2 h3
  have hb1 : (s == "allshots") = false := beq_eq_false_iff_ne.mpr h1
  have hb3 : (s == "dukemtmc") = false := beq_eq_false_iff_ne.mpr h3
  unfold evaluateAll cmcConfigs
  rw [if_neg h2]
  simp [List.lookup, hb1, hb3]

/-- Witness for the amended C7: the market1501 branch and the unknown-name
branch at the name `"x"`. -/
theorem cmc_protocol_selection_witness :
    ("x" ≠ "allshots" ∧ "x" ≠ "market1501" ∧ "x" ≠ "dukemtmc") ∧
    (evaluateAll (fun _ _ => [(2:ℝ)/5]) [] "market1501" =
        ((fun (_ : List (List ℝ)) (_ : CmcFlags) => [(2:ℝ)/5]) []
          ⟨false, false, true⟩).head? ∧
      evaluateAll (fun _ _ => [(2:ℝ)/5]) [] "x" = none) := by
  have h := cmc_protocol_selection (fun _ _ => [(2:ℝ)/5]) []
  exact ⟨⟨by decide, by decide, by decide⟩,
    ⟨h.1, h.2.2.2 "x" (by decide) (by decide) (by decide)⟩⟩

/-! ### Claim C10 -/

/-- C10: with re-ranking enabled, the evaluator hands `evaluate_all` the
matrix `k_re_ranking(distmat)` — `k_re_ranking` treats its argument as a
feature matrix, recomputes all-pairs Euclidean distances between its ROWS via
`cdist`, and always returns a square matrix with one row and one column per
input row; so an `m × n` query×gallery distance matrix yields an `m × m`
matrix built from distances between rows of the distance matrix, not from the
original features. -/
theorem reranking_recomputes_distances_square
    (cmcF : List (List ℝ) → CmcFlags → List ℝ)
    (distmat : List (List ℝ)) (dataset : String) :
    evaluatorEvaluate cmcF distmat dataset true =
      evaluateAll cmcF (kReRanking distmat 20 6 (3 / 10)) dataset ∧
    (kReRanking distmat 20 6 (3 / 10)).length = distmat.length ∧
    (∀ row ∈ kReRanking distmat 20 6 (3 / 10), row.length = distmat.length) ∧
    (∀ i j, i < distmat.length → j < distmat.length →
      get2 (cdistMat distmat) i j =
        eucDist (distmat.getD i []) (distmat.getD j [])) := by
  refine ⟨rfl, kReRanking_length distmat 20 6 (3/10),
    kReRanking_row_length distmat 20 6 (3/10), ?_⟩
  intro i j hi hj
  exact get2_cdistMat distmat i j hi hj

/-- Witness for C10 at the non-square `1 × 2` distance matrix `[[0, 1]]`. -/
theorem reranking_recomputes_distances_square_witness :
    ((0:ℕ) < ([[(0:ℝ), 1]]).length) ∧
    ((kReRanking [[(0:ℝ), 1]] 20 6 (3/10)).length = 1 ∧
      get2 (cdistMat [[(0:ℝ), 1]]) 0 0 =
        eucDist ([[(0:ℝ), 1]].getD 0 []) ([[(0:ℝ), 1]].getD 0 [])) := by
  have h := reranking_recomputes_distances_square (fun _ _ => [(1:ℝ)])
    [[(0:ℝ), 1]] "dukemtmc"
  refine ⟨by simp, ⟨?_, h.2.2.2 0 0 (by simp) (by simp)⟩⟩
  rw [h.2.1]
  rfl

/-! ### Witnesses for C4 and C9 -/

/-- Witness for C4 at `feat = [[0],[1]]`, `k1 = 20`, row `i = 0`. -/
theorem v_row_sums_witness :
    ((0:ℕ) < ([[(0:ℝ)], [1]]).length) ∧
    ((expSet (pipeRank [[(0:ℝ)], [1]]) 20 0 ≠ [] →
        ((pipeV [[(0:ℝ)], [1]] 20).getD 0 []).sum = 1) ∧
      (expSet (pipeRank [[(0:ℝ)], [1]]) 20 0 = [] →
        ((pipeV [[(0:ℝ)], [1]] 20).getD 0 []).sum = 0) ∧
      (∀ j ∈ expSet (pipeRank [[(0:ℝ)], [1]]) 20 0,
        get2 (pipeV [[(0:ℝ)], [1]] 20) 0 j =
          expWeight (distNormalize (cdistMat [[(0:ℝ)], [1]])) 0 j /
            weightTot (pipeRank [[(0:ℝ)], [1]])
              (distNormalize (cdistMat [[(0:ℝ)], [1]])) 20 0)) :=
  ⟨by simp, v_row_sums [[(0:ℝ)], [1]] 20 0 (by simp)⟩

/-- Witness for C9 at `feat = [[0],[1]]`, `k1 = 20`, row `i = 0`. -/
theorem self_inclusion_makes_v_rows_sum_one_witness :
    (0 ∈ ((pipeRank [[(0:ℝ)], [1]]).getD 0 []).take 21) ∧
    (0 ∈ expSet (pipeRank [[(0:ℝ)], [1]]) 20 0 ∧
      expSet (pipeRank [[(0:ℝ)], [1]]) 20 0 ≠ [] ∧
      0 < weightTot (pipeRank [[(0:ℝ)], [1]])
        (distNormalize (cdistMat [[(0:ℝ)], [1]])) 20 0 ∧
      ((pipeV [[(0:ℝ)], [1]] 20).getD 0 []).sum = 1) := by
  have hmem : 0 ∈ ((pipeRank [[(0:ℝ)], [1]]).getD 0 []).take 21 := by
    rw [pipeRank_pair 1 (by norm_num)]
    decide
  exact ⟨hmem,
    (self_inclusion_makes_v_rows_sum_one [[(0:ℝ)], [1]] 20).2.2 0 (by simp) hmem⟩
